import Mathlib

set_option maxHeartbeats 1000000

namespace Everybit

/-- Packed bit array: `bit_sz` bits stored 8 per byte in `buf`.
Each list entry models one `char` of the C buffer as a value `< 256`.
Mirrors `struct bitarray` in `src/everybit/bitarray.c`. -/
structure Bitarray where
  bit_sz : Nat
  buf : List Nat
deriving Repr, DecidableEq

/-- Mask byte with only bit `bit_index % 8` set (`bitmask` in bitarray.c). -/
def bitmask (bit_index : Nat) : Nat := 1 <<< (bit_index % 8)

/-- Value of the bit at `bit_index`: bit `bit_index % 8` (LSB first) of byte
`bit_index / 8` (`bitarray_get` in bitarray.c). -/
def bitarray_get (b : Bitarray) (bit_index : Nat) : Bool :=
  (b.buf.getD (bit_index / 8) 0) &&& bitmask bit_index != 0

/-- Overwrite the bit at `bit_index`: clear it with the complement of
`bitmask` (at byte width, `255 ^^^ bitmask`) and or in the new value
(`bitarray_set` in bitarray.c). -/
def bitarray_set (b : Bitarray) (bit_index : Nat) (value : Bool) : Bitarray :=
  let newByte := ((b.buf.getD (bit_index / 8) 0) &&& (255 ^^^ bitmask bit_index)) |||
    (if value then bitmask bit_index else 0)
  { b with buf := b.buf.set (bit_index / 8) newByte }

/-- Size accessor (`bitarray_get_bit_sz` in bitarray.c). -/
def bitarray_get_bit_sz (b : Bitarray) : Nat := b.bit_sz

/-- Little-endian load of `n` bytes starting at byte `idx`: models the
`memcpy` of the buffer into a `uint64_t` in the C code (host little-endian). -/
def loadLE (buf : List Nat) (idx : Nat) : Nat → Nat
  | 0 => 0
  | n+1 => buf.getD idx 0 + 256 * loadLE buf (idx+1) n

/-- Little-endian store of the low `8*n` bits of `v` into bytes
`idx, idx+1, ...`: models the `memcpy` of a `uint64_t` into the buffer. -/
def storeLE (buf : List Nat) (idx : Nat) (v : Nat) : Nat → List Nat
  | 0 => buf
  | n+1 => storeLE (buf.set idx (v % 256)) (idx+1) (v >>> 8) n

/-- Read 64 bits starting at `bit_index`, LSB first (`bitarray_get_u64`).
Reads 8 bytes as a little-endian word; when the bit offset is nonzero it
also reads a ninth byte and merges its bits into the top of the result,
with the left shift truncated to 64 bits as for a C `uint64_t`. -/
def bitarray_get_u64 (b : Bitarray) (bit_index : Nat) : Nat :=
  let byte_idx := bit_index / 8
  let bit_off := bit_index % 8
  let low_word := loadLE b.buf byte_idx 8
  if bit_off = 0 then low_word
  else
    let high_byte := b.buf.getD (byte_idx + 8) 0
    (low_word >>> bit_off) ||| ((high_byte <<< (64 - bit_off)) % 2 ^ 64)

/-- Write the 64 bits of `value` starting at `bit_index` (`bitarray_set_u64`),
preserving the low `bit_off` bits of the first byte and the high
`8 - bit_off` bits of the ninth byte via the same masks as the C code;
shifts and byte casts are truncated exactly where C truncates them. -/
def bitarray_set_u64 (b : Bitarray) (bit_index : Nat) (value : Nat) : Bitarray :=
  let byte_idx := bit_index / 8
  let bit_off := bit_index % 8
  if bit_off = 0 then
    { b with buf := storeLE b.buf byte_idx value 8 }
  else
    let old_word := loadLE b.buf byte_idx 8
    let old_byte := b.buf.getD (byte_idx + 8) 0
    let mask_lo := (1 <<< bit_off) - 1
    let mask_hi := 255 ^^^ ((1 <<< bit_off) - 1)
    let new_word := (old_word &&& mask_lo) ||| ((value <<< bit_off) % 2 ^ 64)
    let new_byte := (old_byte &&& mask_hi) ||| ((value >>> (64 - bit_off)) % 256)
    { b with buf := (storeLE b.buf byte_idx new_word 8).set (byte_idx + 8) new_byte }

/-- Reversal of the low `w` bits of a word: bit `j` of the result is bit
`w-1-j` of the input. With `w = 64` this models the hardware primitive
`__builtin_bitreverse64` used by the bulk phase of the reversal. -/
def bitrev (w : Nat) (v : Nat) : Nat :=
  match w with
  | 0 => 0
  | w+1 => ((v &&& 1) <<< w) ||| bitrev w (v >>> 1)

/-- Bulk phase of `bitarray_reverse_range` (the `while remaining >= 128`
loop): swap bit-reversed 64-bit words between the two ends, 128 bits per
iteration. Returns the resulting array with the final `left`, `right` and
`remaining` values. -/
def reverse_loop (b : Bitarray) (left right remaining : Nat) :
    Bitarray × Nat × Nat × Nat :=
  if h : 128 ≤ remaining then
    let left_val := bitarray_get_u64 b left
    let right_val := bitarray_get_u64 b (right - 64)
    let left_rev := bitrev 64 left_val
    let right_rev := bitrev 64 right_val
    let b1 := bitarray_set_u64 b (right - 64) left_rev
    let b2 := bitarray_set_u64 b1 left right_rev
    reverse_loop b2 (left + 64) (right - 64) (remaining - 128)
  else (b, left, right, remaining)
termination_by remaining
decreasing_by omega

/-- Tail phase of `bitarray_reverse_range` (the final `for` loop): bit-by-bit
swap of `i` and its mirror `(right-1) - (i-left)` for `i` in
`[i, final_mid)`. -/
def reverse_tail (b : Bitarray) (left right i final_mid : Nat) : Bitarray :=
  if h : i < final_mid then
    let temp := bitarray_get b i
    let mirror_idx := (right - 1) - (i - left)
    let b1 := bitarray_set b i (bitarray_get b mirror_idx)
    let b2 := bitarray_set b1 mirror_idx temp
    reverse_tail b2 left right (i+1) final_mid
  else b
termination_by final_mid - i
decreasing_by omega

/-- Reverse the bit range `[start, start+length)` in place
(`bitarray_reverse_range`): run the bulk phase from
`left = start`, `right = start + length`, `remaining = length`, then the
tail phase up to `final_mid = left + remaining / 2`. -/
def bitarray_reverse_range (b : Bitarray) (start length : Nat) : Bitarray :=
  match reverse_loop b start (start + length) length with
  | (b1, left, right, remaining) =>
      reverse_tail b1 left right left (left + remaining / 2)

/-- Normalization step of `bitarray_rotate`: the C code computes
`bit_length - ((-bit_right_amount) % bit_length)` for negative amounts and
`bit_right_amount % bit_length` otherwise. -/
def normalize_amount (bit_length : Nat) (bit_right_amount : Int) : Nat :=
  if bit_right_amount < 0 then
    bit_length - ((-bit_right_amount).toNat % bit_length)
  else
    bit_right_amount.toNat % bit_length

/-- Rotate the bit range `[bit_offset, bit_offset + bit_length)` right by
`bit_right_amount` positions (`bitarray_rotate`): after normalization, the
three-reversal identity with `split_idx = bit_length - amt`. -/
def bitarray_rotate (b : Bitarray) (bit_offset bit_length : Nat)
    (bit_right_amount : Int) : Bitarray :=
  if bit_length = 0 then b
  else
    let amt := normalize_amount bit_length bit_right_amount
    if amt = 0 then b
    else
      let split_idx := bit_length - amt
      let b1 := bitarray_reverse_range b bit_offset split_idx
      let b2 := bitarray_reverse_range b1 (bit_offset + split_idx) amt
      bitarray_reverse_range b2 bit_offset bit_length

/-- Number of buffer bytes touched by a wide access at `bit_index`:
8, plus the ninth byte when the bit offset is nonzero. -/
def u64_bytes (bit_index : Nat) : Nat := if bit_index % 8 = 0 then 8 else 9

/-- All bytes touched by a wide access at `bit_index` lie inside the
buffer. -/
def u64_in_bounds (b : Bitarray) (bit_index : Nat) : Prop :=
  bit_index / 8 + u64_bytes bit_index ≤ b.buf.length

/-- Every wide access performed by the bulk loop, started at the given
state, touches only bytes inside the buffer. -/
def bulk_safe (b : Bitarray) (left right remaining : Nat) : Prop :=
  if h : 128 ≤ remaining then
    u64_in_bounds b left ∧ u64_in_bounds b (right - 64) ∧
    (let left_rev := bitrev 64 (bitarray_get_u64 b left)
     let right_rev := bitrev 64 (bitarray_get_u64 b (right - 64))
     let b1 := bitarray_set_u64 b (right - 64) left_rev
     let b2 := bitarray_set_u64 b1 left right_rev
     bulk_safe b2 (left + 64) (right - 64) (remaining - 128))
  else True
termination_by remaining
decreasing_by omega

/-- Buffer entries are byte values. -/
def ByteOk (buf : List Nat) : Prop := ∀ x ∈ buf, x < 256

/-- Data-model invariant: the buffer has exactly `ceil(bit_sz/8)` bytes and
holds byte values. -/
def WF (b : Bitarray) : Prop :=
  b.buf.length = (b.bit_sz + 7) / 8 ∧ ByteOk b.buf

/-- Reading back the byte just written. -/
theorem getD_set_self {l : List Nat} {i : Nat} (h : i < l.length) (v : Nat) :
    (l.set i v).getD i 0 = v := by
  induction l generalizing i with
  | nil => simp at h
  | cons a t ih =>
    cases i with
    | zero => simp
    | succ j => simpa using ih (by simpa using h)

/-- Writing one byte leaves every other byte unchanged. -/
theorem getD_set_of_ne {l : List Nat} {i j : Nat} (h : i ≠ j) (v : Nat) :
    (l.set i v).getD j 0 = l.getD j 0 := by
  induction l generalizing i j with
  | nil => simp
  | cons a t ih =>
    cases i with
    | zero =>
      cases j with
      | zero => exact absurd rfl h
      | succ k => simp
    | succ i' =>
      cases j with
      | zero => simp
      | succ k =>
        have hik : i' ≠ k := fun hh => h (by rw [hh])
        simpa using ih hik

/-- Under `ByteOk` every `getD` read is a byte value. -/
theorem ByteOk.getD {buf : List Nat} (h : ByteOk buf) : ∀ i, buf.getD i 0 < 256 := by
  intro i
  induction buf generalizing i with
  | nil => simp [List.getD]
  | cons a t ih =>
    cases i with
    | zero => exact h a (List.mem_cons_self a t)
    | succ j => exact ih (fun x hx => h x (List.mem_cons_of_mem a hx)) j

/-- Writing a byte value preserves `ByteOk`. -/
theorem ByteOk.set {buf : List Nat} (h : ByteOk buf) {i v : Nat} (hv : v < 256) :
    ByteOk (buf.set i v) := by
  intro x hx
  rcases List.mem_or_eq_of_mem_set hx with hm | rfl
  · exact h x hm
  · exact hv

/-- The mask byte is the power of two selecting the in-byte position. -/
theorem bitmask_eq (i : Nat) : bitmask i = 2 ^ (i % 8) := by
  simp [bitmask, Nat.shiftLeft_eq]

/-- Point read, expressed through `Nat.testBit` on the addressed byte. -/
theorem bitarray_get_eq_testBit (b : Bitarray) (i : Nat) :
    bitarray_get b i = (b.buf.getD (i / 8) 0).testBit (i % 8) := by
  rw [bitarray_get, bitmask_eq, Nat.and_two_pow]
  cases h : (b.buf.getD (i / 8) 0).testBit (i % 8)
  · simp
  · simp only [Bool.toNat_true, one_mul, bne_iff_ne, ne_eq]
    simpa using (pow_pos (show (0 : Nat) < 2 by norm_num) (i % 8)).ne'

/-- Buffer view of a point write. -/
theorem bitarray_set_buf (b : Bitarray) (i : Nat) (v : Bool) :
    (bitarray_set b i v).buf =
      b.buf.set (i / 8) (((b.buf.getD (i / 8) 0) &&& (255 ^^^ bitmask i)) |||
        (if v then bitmask i else 0)) := rfl

/-- Effect of the byte-level write of `bitarray_set` on each bit of the
touched byte. -/
theorem testBit_setByte (old k j : Nat) (hk : k < 8) (hj : j < 8) (v : Bool) :
    Nat.testBit ((old &&& (255 ^^^ (1 <<< k))) ||| (if v then 1 <<< k else 0)) j
      = if j = k then v else old.testBit j := by
  have hsh : (1 : Nat) <<< k = 2 ^ k := by simp [Nat.shiftLeft_eq]
  have h1 : Nat.testBit 255 j = true := by
    rw [show (255 : Nat) = 2 ^ 8 - 1 by norm_num, Nat.testBit_two_pow_sub_one]
    simpa using hj
  rw [hsh]
  rcases Nat.decEq j k with h | h
  · have h2 : Nat.testBit (2 ^ k) j = false :=
      Nat.testBit_two_pow_of_ne (fun hh => h hh.symm)
    cases v <;>
      simp [Nat.testBit_or, Nat.testBit_and, Nat.testBit_xor, h1, h2, h]
  · subst h
    have h2 : Nat.testBit (2 ^ j) j = true := Nat.testBit_two_pow_self
    cases v <;>
      simp [Nat.testBit_or, Nat.testBit_and, Nat.testBit_xor, h1, h2]

/-- Point write: the addressed bit becomes `value`; every other bit of the
array is untouched.  Needs the byte index in bounds, as in C. -/
theorem bitarray_get_set (b : Bitarray) (i : Nat) (v : Bool)
    (hin : i / 8 < b.buf.length) (j : Nat) :
    bitarray_get (bitarray_set b i v) j = if j = i then v else bitarray_get b j := by
  rw [bitarray_get_eq_testBit, bitarray_get_eq_testBit, bitarray_set_buf]
  rcases Nat.decEq (j / 8) (i / 8) with hb | hb
  · have hji : j ≠ i := by omega
    rw [getD_set_of_ne (fun h => hb h.symm), if_neg hji]
  · rw [hb, getD_set_self hin]
    simp only [bitmask]
    rw [testBit_setByte _ _ _ (Nat.mod_lt _ (by norm_num)) (Nat.mod_lt _ (by norm_num))]
    by_cases hji : j = i
    · simp [hji]
    · have hne : ¬ (j % 8 = i % 8) := by omega
      rw [if_neg hne, if_neg hji]

/-- The write stays inside the byte range: length is preserved. -/
theorem bitarray_set_length (b : Bitarray) (i : Nat) (v : Bool) :
    (bitarray_set b i v).buf.length = b.buf.length := by
  simp [bitarray_set]

/-- Point writes do not change the bit count. -/
theorem bitarray_set_bit_sz (b : Bitarray) (i : Nat) (v : Bool) :
    (bitarray_set b i v).bit_sz = b.bit_sz := rfl

/-- Point writes keep all buffer entries byte values. -/
theorem bitmask_lt (i : Nat) : bitmask i < 2 ^ 8 := by
  rw [bitmask_eq]
  calc 2 ^ (i % 8) ≤ 2 ^ 7 :=
        Nat.pow_le_pow_right (by norm_num) (by omega)
    _ < 2 ^ 8 := by norm_num

theorem bitarray_set_byteOk {b : Bitarray} (h : ByteOk b.buf) (i : Nat) (v : Bool) :
    ByteOk (bitarray_set b i v).buf := by
  rw [bitarray_set_buf]
  refine h.set ?_
  have h1 : (b.buf.getD (i / 8) 0) &&& (255 ^^^ bitmask i) < 2 ^ 8 :=
    Nat.and_lt_two_pow _ (Nat.xor_lt_two_pow (by norm_num) (bitmask_lt i))
  have h2 : (if v then bitmask i else 0) < 2 ^ 8 := by
    cases v
    · simp
    · simpa using bitmask_lt i
  rw [show (256 : Nat) = 2 ^ 8 by norm_num]
  exact Nat.or_lt_two_pow h1 h2

/-- A little-endian load of `n` bytes is an `8*n`-bit value. -/
theorem loadLE_lt {buf : List Nat} (h : ByteOk buf) (idx n : Nat) :
    loadLE buf idx n < 2 ^ (8 * n) := by
  induction n generalizing idx with
  | zero => simp [loadLE]
  | succ n ih =>
    have hb := h.getD idx
    have hr := ih (idx + 1)
    have hp : (2 : Nat) ^ (8 * (n + 1)) = 256 * 2 ^ (8 * n) := by
      rw [show 8 * (n + 1) = 8 + 8 * n by ring, pow_add]
      norm_num
    rw [loadLE]
    omega

/-- Bit `j` of a little-endian load is bit `j % 8` of byte `idx + j / 8`. -/
theorem loadLE_testBit {buf : List Nat} (h : ByteOk buf) (idx n j : Nat)
    (hj : j < 8 * n) :
    (loadLE buf idx n).testBit j = (buf.getD (idx + j / 8) 0).testBit (j % 8) := by
  induction n generalizing idx j with
  | zero => omega
  | succ n ih =>
    rw [loadLE, show (256 : Nat) = 2 ^ 8 by norm_num, Nat.add_comm,
      Nat.testBit_mul_pow_two_add _ (h.getD idx)]
    by_cases hj8 : j < 8
    · rw [if_pos hj8]
      have e1 : j / 8 = 0 := by omega
      have e2 : j % 8 = j := by omega
      rw [e1, e2, Nat.add_zero]
    · rw [if_neg hj8, ih (idx + 1) (j - 8) (by omega)]
      have e1 : idx + 1 + (j - 8) / 8 = idx + j / 8 := by omega
      have e2 : (j - 8) % 8 = j % 8 := by omega
      rw [e1, e2]

/-- Storing bytes does not change the buffer length. -/
theorem storeLE_length (buf : List Nat) (idx v n : Nat) :
    (storeLE buf idx v n).length = buf.length := by
  induction n generalizing buf idx v with
  | zero => rfl
  | succ n ih => rw [storeLE, ih, List.length_set]

/-- Storing bytes keeps all entries byte values. -/
theorem storeLE_byteOk {buf : List Nat} (h : ByteOk buf) (idx v n : Nat) :
    ByteOk (storeLE buf idx v n) := by
  induction n generalizing buf idx v with
  | zero => exact h
  | succ n ih => exact ih (h.set (Nat.mod_lt _ (by norm_num))) _ _

/-- Byte view of a little-endian store: bytes in `[idx, idx+n)` receive the
corresponding byte of `v`, all others are unchanged. -/
theorem storeLE_getD {buf : List Nat} {idx n : Nat} (hn : idx + n ≤ buf.length)
    (v k : Nat) :
    (storeLE buf idx v n).getD k 0 =
      if idx ≤ k ∧ k < idx + n then (v >>> (8 * (k - idx))) % 256
      else buf.getD k 0 := by
  induction n generalizing buf idx v with
  | zero =>
    rw [storeLE, if_neg (by omega)]
  | succ n ih =>
    rw [storeLE, ih (by rw [List.length_set]; omega)]
    by_cases h1 : idx + 1 ≤ k ∧ k < idx + 1 + n
    · rw [if_pos h1, if_pos (by omega)]
      have e1 : 8 * (k - idx) = 8 + 8 * (k - (idx + 1)) := by omega
      rw [e1, Nat.shiftRight_add]
    · rw [if_neg h1]
      by_cases h2 : k = idx
      · subst h2
        rw [if_pos (by omega), getD_set_self (by omega)]
        simp
      · rw [if_neg (by omega), getD_set_of_ne (fun hh => h2 hh.symm)]

/-- Word reversal is a `w`-bit value. -/
theorem bitrev_lt (w v : Nat) : bitrev w v < 2 ^ w := by
  induction w generalizing v with
  | zero => simp [bitrev]
  | succ w ih =>
    rw [bitrev]
    have hp : 0 < (2 : Nat) ^ w := pow_pos (by norm_num) w
    have he : (2 : Nat) ^ (w + 1) = 2 * 2 ^ w := by rw [pow_succ]; ring
    have h1 : v &&& 1 < 2 := by
      simpa using Nat.and_lt_two_pow v (show 1 < 2 ^ 1 by norm_num)
    have h2 : bitrev w (v >>> 1) < 2 ^ w := ih _
    refine Nat.or_lt_two_pow ?_ (by omega)
    rw [Nat.shiftLeft_eq]
    have h3 : (v &&& 1) * 2 ^ w ≤ 1 * 2 ^ w :=
      Nat.mul_le_mul_right _ (by omega)
    omega

/-- Bit `j` of the `w`-bit reversal of `v` is bit `w-1-j` of `v`. -/
theorem bitrev_testBit (w v j : Nat) :
    (bitrev w v).testBit j = if j < w then v.testBit (w - 1 - j) else false := by
  induction w generalizing v j with
  | zero => simp [bitrev]
  | succ w ih =>
    rw [bitrev, Nat.testBit_or, Nat.testBit_shiftLeft, ih]
    rcases Nat.lt_trichotomy j w with h | h | h
    · rw [if_pos h, if_pos (by omega)]
      have hge : ¬ j ≥ w := by omega
      simp only [hge, decide_False, Bool.false_and, Bool.false_or]
      rw [Nat.testBit_shiftRight]
      congr 1
      omega
    · subst h
      rw [if_neg (by omega), if_pos (by omega)]
      have e1 : j - j = 0 := by omega
      have e2 : j + 1 - 1 - j = 0 := by omega
      simp [e1, e2, Nat.testBit_and]
    · rw [if_neg (by omega), if_neg (by omega)]
      have h1 : (v % 2).testBit (j - w) = false := by
        apply Nat.testBit_lt_two_pow
        have h2 : v % 2 < 2 := Nat.mod_lt _ (by norm_num)
        calc v % 2 < 2 ^ 1 := by simpa using h2
          _ ≤ 2 ^ (j - w) := Nat.pow_le_pow_right (by norm_num) (by omega)
      simp [h1]

/-- A wide read yields a 64-bit value. -/
theorem get_u64_lt {b : Bitarray} (h : ByteOk b.buf) (i : Nat) :
    bitarray_get_u64 b i < 2 ^ 64 := by
  have hload : loadLE b.buf (i / 8) 8 < 2 ^ 64 := by
    simpa using loadLE_lt h (i / 8) 8
  simp only [bitarray_get_u64]
  by_cases h0 : i % 8 = 0
  · rw [if_pos h0]
    exact hload
  · rw [if_neg h0]
    refine Nat.or_lt_two_pow ?_ (Nat.mod_lt _ (pow_pos (by norm_num) 64))
    calc loadLE b.buf (i / 8) 8 >>> (i % 8) ≤ loadLE b.buf (i / 8) 8 := by
          rw [Nat.shiftRight_eq_div_pow]
          exact Nat.div_le_self _ _
      _ < 2 ^ 64 := hload

/-- Bit `j` of a wide read at `i` is the array bit at `i + j`. -/
theorem get_u64_testBit {b : Bitarray} (h : ByteOk b.buf) (i j : Nat)
    (hj : j < 64) :
    (bitarray_get_u64 b i).testBit j = bitarray_get b (i + j) := by
  rw [bitarray_get_eq_testBit]
  simp only [bitarray_get_u64]
  by_cases h0 : i % 8 = 0
  · rw [if_pos h0, loadLE_testBit h _ _ _ (by omega : j < 8 * 8)]
    have e1 : i / 8 + j / 8 = (i + j) / 8 := by omega
    have e2 : j % 8 = (i + j) % 8 := by omega
    rw [e1, e2]
  · rw [if_neg h0, Nat.testBit_or, Nat.testBit_shiftRight,
      Nat.testBit_mod_two_pow, Nat.testBit_shiftLeft]
    by_cases hcase : i % 8 + j < 64
    · rw [loadLE_testBit h _ _ _ (by omega : i % 8 + j < 8 * 8)]
      have hge : ¬ (j ≥ 64 - i % 8) := by omega
      simp only [hge, decide_False, Bool.false_and, Bool.and_false, Bool.or_false]
      have e1 : i / 8 + (i % 8 + j) / 8 = (i + j) / 8 := by omega
      have e2 : (i % 8 + j) % 8 = (i + j) % 8 := by omega
      rw [e1, e2]
    · have hlow : (loadLE b.buf (i / 8) 8).testBit (i % 8 + j) = false := by
        apply Nat.testBit_lt_two_pow
        calc loadLE b.buf (i / 8) 8 < 2 ^ (8 * 8) := loadLE_lt h (i / 8) 8
          _ ≤ 2 ^ (i % 8 + j) := Nat.pow_le_pow_right (by norm_num) (by omega)
      have hge : j ≥ 64 - i % 8 := by omega
      rw [hlow]
      simp only [hj, hge, decide_True, Bool.true_and, Bool.false_or]
      have e1 : i / 8 + 8 = (i + j) / 8 := by omega
      have e2 : j - (64 - i % 8) = (i + j) % 8 := by omega
      rw [e1, e2]

/-- Bit view of the merged low word written by the unaligned wide store. -/
theorem testBit_merge_word (old v off t : Nat) (hoff : off < 8) :
    Nat.testBit ((old &&& ((1 <<< off) - 1)) ||| ((v <<< off) % 2 ^ 64)) t =
      if t < off then old.testBit t
      else if t < 64 then v.testBit (t - off) else false := by
  rw [show (1 : Nat) <<< off = 2 ^ off by simp [Nat.shiftLeft_eq]]
  rw [Nat.testBit_or, Nat.testBit_and, Nat.testBit_two_pow_sub_one,
    Nat.testBit_mod_two_pow, Nat.testBit_shiftLeft]
  by_cases h1 : t < off
  · have h2 : ¬ (t ≥ off) := by omega
    rw [if_pos h1]
    simp [h1, h2]
  · have h2 : t ≥ off := by omega
    rw [if_neg h1]
    by_cases h3 : t < 64
    · rw [if_pos h3]
      simp [h1, h2, h3]
    · rw [if_neg h3]
      simp [h1, h2, h3]

/-- Bit view of the merged ninth byte written by the unaligned wide store;
`w` is the already-shifted top part of the stored value. -/
theorem testBit_merge_byte (old w off m : Nat) (hoff : off < 8) (hm : m < 8)
    (hw : w < 2 ^ off) :
    Nat.testBit ((old &&& (255 ^^^ ((1 <<< off) - 1))) ||| (w % 256)) m =
      if m < off then w.testBit m else old.testBit m := by
  have e255 : (255 : Nat) = 2 ^ 8 - 1 := by norm_num
  have e256 : (256 : Nat) = 2 ^ 8 := by norm_num
  rw [e255, e256, show (1 : Nat) <<< off = 2 ^ off by simp [Nat.shiftLeft_eq]]
  rw [Nat.testBit_or, Nat.testBit_and, Nat.testBit_xor,
    Nat.testBit_two_pow_sub_one, Nat.testBit_two_pow_sub_one,
    Nat.testBit_mod_two_pow]
  by_cases h1 : m < off
  · rw [if_pos h1]
    simp [hm, h1]
  · have h2 : w.testBit m = false :=
      Nat.testBit_lt_two_pow
        (lt_of_lt_of_le hw (Nat.pow_le_pow_right (by norm_num) (by omega)))
    rw [if_neg h1]
    simp [hm, h1, h2]

/-- Buffer view of an aligned wide store. -/
theorem set_u64_buf_aligned {b : Bitarray} {i v : Nat} (h0 : i % 8 = 0) :
    (bitarray_set_u64 b i v).buf = storeLE b.buf (i / 8) v 8 := by
  simp only [bitarray_set_u64]
  rw [if_pos h0]

/-- Buffer view of an unaligned wide store. -/
theorem set_u64_buf_unaligned {b : Bitarray} {i v : Nat} (h0 : ¬ (i % 8 = 0)) :
    (bitarray_set_u64 b i v).buf =
      (storeLE b.buf (i / 8)
        ((loadLE b.buf (i / 8) 8 &&& ((1 <<< (i % 8)) - 1)) |||
          ((v <<< (i % 8)) % 2 ^ 64)) 8).set (i / 8 + 8)
        ((b.buf.getD (i / 8 + 8) 0 &&& (255 ^^^ ((1 <<< (i % 8)) - 1))) |||
          ((v >>> (64 - i % 8)) % 256)) := by
  simp only [bitarray_set_u64]
  rw [if_neg h0]

/-- Wide stores do not change the bit count. -/
theorem set_u64_bit_sz (b : Bitarray) (i v : Nat) :
    (bitarray_set_u64 b i v).bit_sz = b.bit_sz := by
  simp only [bitarray_set_u64]
  by_cases h0 : i % 8 = 0
  · rw [if_pos h0]
  · rw [if_neg h0]

/-- Wide stores do not change the buffer length. -/
theorem set_u64_length (b : Bitarray) (i v : Nat) :
    (bitarray_set_u64 b i v).buf.length = b.buf.length := by
  by_cases h0 : i % 8 = 0
  · rw [set_u64_buf_aligned h0, storeLE_length]
  · rw [set_u64_buf_unaligned h0, List.length_set, storeLE_length]

/-- Wide stores keep all buffer entries byte values. -/
theorem set_u64_byteOk {b : Bitarray} (h : ByteOk b.buf) (i v : Nat) :
    ByteOk (bitarray_set_u64 b i v).buf := by
  by_cases h0 : i % 8 = 0
  · rw [set_u64_buf_aligned h0]
    exact storeLE_byteOk h _ _ _
  · rw [set_u64_buf_unaligned h0]
    refine (storeLE_byteOk h _ _ _).set ?_
    have h1 : (b.buf.getD (i / 8 + 8) 0 &&& (255 ^^^ ((1 <<< (i % 8)) - 1))) < 2 ^ 8 := by
      refine Nat.and_lt_two_pow _ (Nat.xor_lt_two_pow (by norm_num) ?_)
      have : (1 : Nat) <<< (i % 8) ≤ 2 ^ 7 := by
        rw [Nat.shiftLeft_eq, one_mul]
        exact Nat.pow_le_pow_right (by norm_num) (by omega)
      omega
    have h2 : (v >>> (64 - i % 8)) % 256 < 2 ^ 8 := by
      have : (256 : Nat) = 2 ^ 8 := by norm_num
      rw [this]
      exact Nat.mod_lt _ (pow_pos (by norm_num) 8)
    rw [show (256 : Nat) = 2 ^ 8 by norm_num]
    exact Nat.or_lt_two_pow h1 h2

/-- Point view of a wide store: bits `[i, i+64)` take the bits of `v`,
every other bit of the array is untouched. -/
theorem get_set_u64 {b : Bitarray} (h : ByteOk b.buf) {i : Nat}
    (hin : u64_in_bounds b i) {v : Nat} (hv : v < 2 ^ 64) (x : Nat) :
    bitarray_get (bitarray_set_u64 b i v) x =
      if i ≤ x ∧ x < i + 64 then v.testBit (x - i) else bitarray_get b x := by
  have hin' := hin
  simp only [u64_in_bounds, u64_bytes] at hin'
  rw [bitarray_get_eq_testBit]
  by_cases h0 : i % 8 = 0
  · rw [if_pos h0] at hin'
    rw [set_u64_buf_aligned h0, storeLE_getD (by omega) v (x / 8)]
    by_cases hx : i ≤ x ∧ x < i + 64
    · rw [if_pos hx, if_pos (by omega : i / 8 ≤ x / 8 ∧ x / 8 < i / 8 + 8)]
      rw [show (256 : Nat) = 2 ^ 8 by norm_num, Nat.testBit_mod_two_pow,
        Nat.testBit_shiftRight]
      have hm8 : x % 8 < 8 := Nat.mod_lt _ (by norm_num)
      simp only [hm8, decide_True, Bool.true_and]
      congr 1
      omega
    · rw [if_neg hx, if_neg (by omega), bitarray_get_eq_testBit]
  · rw [if_neg h0] at hin'
    rw [set_u64_buf_unaligned h0]
    have hoff : i % 8 < 8 := Nat.mod_lt _ (by norm_num)
    have hw : v >>> (64 - i % 8) < 2 ^ (i % 8) := by
      rw [Nat.shiftRight_eq_div_pow]
      apply Nat.div_lt_of_lt_mul
      rw [← pow_add, show 64 - i % 8 + i % 8 = 64 by omega]
      exact hv
    by_cases hx8 : x / 8 = i / 8 + 8
    · rw [hx8, getD_set_self (by rw [storeLE_length]; omega)]
      rw [testBit_merge_byte _ _ _ _ hoff (Nat.mod_lt _ (by norm_num)) hw]
      by_cases hm : x % 8 < i % 8
      · rw [if_pos hm, if_pos (by omega), Nat.testBit_shiftRight]
        congr 1
        omega
      · rw [if_neg hm, if_neg (by omega), bitarray_get_eq_testBit, hx8]
    · rw [getD_set_of_ne (fun hh => hx8 hh.symm),
        storeLE_getD (by omega : i / 8 + 8 ≤ b.buf.length) _ (x / 8)]
      by_cases hq : i / 8 ≤ x / 8 ∧ x / 8 < i / 8 + 8
      · rw [if_pos hq, show (256 : Nat) = 2 ^ 8 by norm_num,
          Nat.testBit_mod_two_pow, Nat.testBit_shiftRight]
        have hm8 : x % 8 < 8 := Nat.mod_lt _ (by norm_num)
        simp only [hm8, decide_True, Bool.true_and]
        rw [testBit_merge_word _ _ _ _ hoff]
        by_cases ht : 8 * (x / 8 - i / 8) + x % 8 < i % 8
        · rw [if_pos ht, loadLE_testBit h _ _ _ (by omega), if_neg (by omega),
            bitarray_get_eq_testBit]
          have e1 : i / 8 + (8 * (x / 8 - i / 8) + x % 8) / 8 = x / 8 := by omega
          have e2 : (8 * (x / 8 - i / 8) + x % 8) % 8 = x % 8 := by omega
          rw [e1, e2]
        · rw [if_neg ht, if_pos (by omega : 8 * (x / 8 - i / 8) + x % 8 < 64),
            if_pos (by omega : i ≤ x ∧ x < i + 64)]
          congr 1
          omega
      · rw [if_neg hq, if_neg (by omega), bitarray_get_eq_testBit]

/-- One iteration of the bulk loop. -/
theorem reverse_loop_step (b : Bitarray) (left right remaining : Nat)
    (hc : 128 ≤ remaining) :
    reverse_loop b left right remaining =
      reverse_loop
        (bitarray_set_u64
          (bitarray_set_u64 b (right - 64) (bitrev 64 (bitarray_get_u64 b left)))
          left (bitrev 64 (bitarray_get_u64 b (right - 64))))
        (left + 64) (right - 64) (remaining - 128) := by
  rw [reverse_loop]
  rw [dif_pos hc]

/-- Exit of the bulk loop. -/
theorem reverse_loop_done (b : Bitarray) (left right remaining : Nat)
    (hc : ¬ 128 ≤ remaining) :
    reverse_loop b left right remaining = (b, left, right, remaining) := by
  rw [reverse_loop]
  rw [dif_neg hc]

/-- One iteration of the tail loop. -/
theorem reverse_tail_step (b : Bitarray) (left right i final_mid : Nat)
    (hc : i < final_mid) :
    reverse_tail b left right i final_mid =
      reverse_tail
        (bitarray_set (bitarray_set b i (bitarray_get b ((right - 1) - (i - left))))
          ((right - 1) - (i - left)) (bitarray_get b i))
        left right (i + 1) final_mid := by
  rw [reverse_tail]
  rw [dif_pos hc]

/-- Exit of the tail loop. -/
theorem reverse_tail_done (b : Bitarray) (left right i final_mid : Nat)
    (hc : ¬ i < final_mid) :
    reverse_tail b left right i final_mid = b := by
  rw [reverse_tail]
  rw [dif_neg hc]

/-- Effect of one bulk iteration on every bit: the two 64-bit end windows
are replaced by their mirrored images, nothing else moves. -/
theorem bulk_step_get {b : Bitarray} (hB : ByteOk b.buf)
    {left right remaining : Nat} (hr : right = left + remaining)
    (hbound : right ≤ 8 * b.buf.length) (hc : 128 ≤ remaining) (x : Nat) :
    bitarray_get
      (bitarray_set_u64
        (bitarray_set_u64 b (right - 64) (bitrev 64 (bitarray_get_u64 b left)))
        left (bitrev 64 (bitarray_get_u64 b (right - 64)))) x =
      if (left ≤ x ∧ x < left + 64) ∨ (right - 64 ≤ x ∧ x < right) then
        bitarray_get b (left + right - 1 - x)
      else bitarray_get b x := by
  have hinL : u64_in_bounds b left := by
    simp only [u64_in_bounds, u64_bytes]
    split <;> omega
  have hinR : u64_in_bounds b (right - 64) := by
    simp only [u64_in_bounds, u64_bytes]
    split <;> omega
  have hB1 : ByteOk (bitarray_set_u64 b (right - 64)
      (bitrev 64 (bitarray_get_u64 b left))).buf := set_u64_byteOk hB _ _
  have hinL1 : u64_in_bounds
      (bitarray_set_u64 b (right - 64) (bitrev 64 (bitarray_get_u64 b left)))
      left := by
    simp only [u64_in_bounds, set_u64_length]
    exact hinL
  rw [get_set_u64 hB1 hinL1 (bitrev_lt 64 _) x]
  by_cases hx1 : left ≤ x ∧ x < left + 64
  · rw [if_pos hx1, if_pos (Or.inl hx1)]
    rw [bitrev_testBit, if_pos (by omega : x - left < 64),
      get_u64_testBit hB _ _ (by omega)]
    congr 1
    omega
  · rw [if_neg hx1, get_set_u64 hB hinR (bitrev_lt 64 _) x]
    by_cases hx2 : right - 64 ≤ x ∧ x < right - 64 + 64
    · rw [if_pos hx2, if_pos (Or.inr (by omega))]
      rw [bitrev_testBit, if_pos (by omega : x - (right - 64) < 64),
        get_u64_testBit hB _ _ (by omega)]
      congr 1
      omega
    · rw [if_neg hx2, if_neg (by omega)]

/-- Invariant of the bulk loop: on exit, the two flanks of the range are
mirrored into each other, the unprocessed middle and everything outside the
range are untouched, and the final middle spans fewer than 128 bits. -/
theorem reverse_loop_spec :
    ∀ (remaining : Nat) (b : Bitarray) (left right : Nat),
      right = left + remaining → right ≤ 8 * b.buf.length → ByteOk b.buf →
      ∀ b2 l2 r2 rem2, reverse_loop b left right remaining = (b2, l2, r2, rem2) →
      ByteOk b2.buf ∧ b2.buf.length = b.buf.length ∧ b2.bit_sz = b.bit_sz ∧
      left ≤ l2 ∧ r2 ≤ right ∧ r2 = l2 + rem2 ∧ rem2 < 128 ∧
      l2 + r2 = left + right ∧
      (∀ x, l2 ≤ x → x < r2 → bitarray_get b2 x = bitarray_get b x) ∧
      (∀ x, (left ≤ x ∧ x < l2) ∨ (r2 ≤ x ∧ x < right) →
        bitarray_get b2 x = bitarray_get b (left + right - 1 - x)) ∧
      (∀ x, x < left ∨ right ≤ x → bitarray_get b2 x = bitarray_get b x) := by
  intro remaining
  induction remaining using Nat.strong_induction_on with
  | _ remaining ih =>
    intro b left right hr hbound hB b2 l2 r2 rem2 heq
    by_cases hc : 128 ≤ remaining
    · rw [reverse_loop_step b left right remaining hc] at heq
      have hstep := bulk_step_get hB hr hbound hc
      set bs := bitarray_set_u64
        (bitarray_set_u64 b (right - 64) (bitrev 64 (bitarray_get_u64 b left)))
        left (bitrev 64 (bitarray_get_u64 b (right - 64))) with hbs
      have hlen : bs.buf.length = b.buf.length := by
        rw [hbs, set_u64_length, set_u64_length]
      have hsz : bs.bit_sz = b.bit_sz := by
        rw [hbs, set_u64_bit_sz, set_u64_bit_sz]
      have hBs : ByteOk bs.buf := set_u64_byteOk (set_u64_byteOk hB _ _) _ _
      obtain ⟨c1, c2, c3, c4, c5, c6, c7, c8, c9, c10, c11⟩ :=
        ih (remaining - 128) (by omega) bs (left + 64) (right - 64)
          (by omega) (by omega) hBs b2 l2 r2 rem2 heq
      refine ⟨c1, by omega, by rw [c3, hsz], by omega, by omega, c6, c7,
        by omega, ?_, ?_, ?_⟩
      · intro x hx1 hx2
        rw [c9 x hx1 hx2, hstep x, if_neg (by omega)]
      · intro x hx
        rcases hx with ⟨hxa, hxb⟩ | ⟨hxa, hxb⟩
        · by_cases hwin : x < left + 64
          · rw [c11 x (by omega), hstep x, if_pos (Or.inl (by omega))]
          · rw [c10 x (Or.inl (by omega)), hstep (left + 64 + (right - 64) - 1 - x),
              if_neg (by omega)]
            congr 1
            omega
        · by_cases hwin : right - 64 ≤ x
          · rw [c11 x (by omega), hstep x, if_pos (Or.inr (by omega))]
          · rw [c10 x (Or.inr (by omega)), hstep (left + 64 + (right - 64) - 1 - x),
              if_neg (by omega)]
            congr 1
            omega
      · intro x hx
        rw [c11 x (by omega), hstep x, if_neg (by omega)]
    · rw [reverse_loop_done b left right remaining hc] at heq
      obtain ⟨rfl, rfl, rfl, rfl⟩ :
          b = b2 ∧ left = l2 ∧ right = r2 ∧ remaining = rem2 := by
        injection heq with h1 h2
        injection h2 with h2 h3
        injection h3 with h3 h4
        exact ⟨h1, h2, h3, h4⟩
      refine ⟨hB, rfl, rfl, le_refl _, le_refl _, hr, by omega, rfl,
        fun x _ _ => rfl, ?_, fun x _ => rfl⟩
      intro x hx
      omega

/-- Specification of the tail loop: the pairs `(x, left+right-1-x)` with
`x` in `[i, mid)` are swapped, everything else is untouched. -/
theorem reverse_tail_spec :
    ∀ (n : Nat) (b : Bitarray) (left right i mid : Nat),
      mid - i = n → left ≤ i → i ≤ mid → 2 * mid ≤ left + right →
      right ≤ 8 * b.buf.length → ByteOk b.buf →
      ByteOk (reverse_tail b left right i mid).buf ∧
      (reverse_tail b left right i mid).buf.length = b.buf.length ∧
      (reverse_tail b left right i mid).bit_sz = b.bit_sz ∧
      (∀ x, bitarray_get (reverse_tail b left right i mid) x =
        if (i ≤ x ∧ x < mid) ∨
            (left + right - mid ≤ x ∧ x < left + right - i) then
          bitarray_get b (left + right - 1 - x)
        else bitarray_get b x) := by
  intro n
  induction n with
  | zero =>
    intro b left right i mid hn hli him hmid hbound hB
    have hc : ¬ i < mid := by omega
    rw [reverse_tail_done _ _ _ _ _ hc]
    exact ⟨hB, rfl, rfl, fun x => by rw [if_neg (by omega)]⟩
  | succ n ihn =>
    intro b left right i mid hn hli him hmid hbound hB
    have hc : i < mid := by omega
    rw [reverse_tail_step _ _ _ _ _ hc]
    set mir := (right - 1) - (i - left) with hmirdef
    have hmir : mir = left + right - 1 - i := by omega
    have hiin : i / 8 < b.buf.length := by omega
    have hmin : mir / 8 < b.buf.length := by omega
    have h1 : ∀ y, bitarray_get
        (bitarray_set (bitarray_set b i (bitarray_get b mir)) mir
          (bitarray_get b i)) y =
        if y = mir then bitarray_get b i
        else if y = i then bitarray_get b mir else bitarray_get b y := by
      intro y
      rw [bitarray_get_set _ _ _ (by rw [bitarray_set_length]; exact hmin) y,
        bitarray_get_set _ _ _ hiin y]
    have hB2 : ByteOk (bitarray_set (bitarray_set b i (bitarray_get b mir)) mir
        (bitarray_get b i)).buf :=
      bitarray_set_byteOk (bitarray_set_byteOk hB _ _) _ _
    have hlen2 : (bitarray_set (bitarray_set b i (bitarray_get b mir)) mir
        (bitarray_get b i)).buf.length = b.buf.length := by
      rw [bitarray_set_length, bitarray_set_length]
    obtain ⟨d1, d2, d3, d4⟩ :=
      ihn (bitarray_set (bitarray_set b i (bitarray_get b mir)) mir
          (bitarray_get b i)) left right (i + 1) mid
        (by omega) (by omega) (by omega) hmid (by rw [hlen2]; exact hbound) hB2
    refine ⟨d1, by rw [d2, hlen2], by rw [d3]; rfl, fun x => ?_⟩
    rw [d4 x]
    by_cases hx1 : (i + 1 ≤ x ∧ x < mid) ∨
        (left + right - mid ≤ x ∧ x < left + right - (i + 1))
    · rw [if_pos hx1, h1, if_neg (by omega), if_neg (by omega),
        if_pos (by omega)]
    · rw [if_neg hx1, h1]
      by_cases hx2 : x = mir
      · rw [if_pos hx2, if_pos (by omega)]
        congr 1
        omega
      · rw [if_neg hx2]
        by_cases hx3 : x = i
        · rw [if_pos hx3, if_pos (by omega)]
          congr 1
          omega
        · rw [if_neg hx3, if_neg (by omega)]

/-- Full specification of `bitarray_reverse_range`: inside
`[start, start+length)` the bits are mirrored, everything else (and the
buffer shape) is untouched. -/
theorem reverse_range_spec (b : Bitarray) (start length : Nat)
    (hB : ByteOk b.buf) (hbound : start + length ≤ 8 * b.buf.length) :
    ByteOk (bitarray_reverse_range b start length).buf ∧
    (bitarray_reverse_range b start length).buf.length = b.buf.length ∧
    (bitarray_reverse_range b start length).bit_sz = b.bit_sz ∧
    ∀ x, bitarray_get (bitarray_reverse_range b start length) x =
      if start ≤ x ∧ x < start + length then
        bitarray_get b (2 * start + length - 1 - x)
      else bitarray_get b x := by
  rcases h : reverse_loop b start (start + length) length with ⟨b1, l1, r1, rem1⟩
  obtain ⟨c1, c2, c3, c4, c5, c6, c7, c8, c9, c10, c11⟩ :=
    reverse_loop_spec length b start (start + length) rfl hbound hB b1 l1 r1 rem1 h
  have hrr : bitarray_reverse_range b start length =
      reverse_tail b1 l1 r1 l1 (l1 + rem1 / 2) := by
    rw [bitarray_reverse_range, h]
  obtain ⟨e1, e2, e3, e4⟩ :=
    reverse_tail_spec (rem1 / 2) b1 l1 r1 l1 (l1 + rem1 / 2) (by omega)
      (le_refl _) (by omega) (by omega) (by rw [c2]; omega) c1
  rw [hrr]
  refine ⟨e1, by rw [e2, c2], by rw [e3, c3], fun x => ?_⟩
  rw [e4 x]
  by_cases hx : start ≤ x ∧ x < start + length
  · rw [if_pos hx]
    by_cases ht : (l1 ≤ x ∧ x < l1 + rem1 / 2) ∨
        (l1 + r1 - (l1 + rem1 / 2) ≤ x ∧ x < l1 + r1 - l1)
    · rw [if_pos ht, c9 (l1 + r1 - 1 - x) (by omega) (by omega)]
      congr 1
      omega
    · rw [if_neg ht]
      by_cases hm : l1 ≤ x ∧ x < r1
      · rw [c9 x (by omega) (by omega)]
        congr 1
        omega
      · rw [c10 x (by omega)]
        congr 1
        omega
  · rw [if_neg hx, if_neg (by omega), c11 x (by omega)]

/-- The normalized amount never exceeds the range length. -/
theorem normalize_amount_le (length : Nat) (hpos : 0 < length) (r : Int) :
    normalize_amount length r ≤ length := by
  unfold normalize_amount
  split
  · omega
  · exact le_of_lt (Nat.mod_lt _ hpos)

/-- The normalized amount is congruent to the raw amount modulo the
length. -/
theorem normalize_amount_emod (length : Nat) (hpos : 0 < length) (r : Int) :
    (normalize_amount length r : Int) % (length : Int) = r % (length : Int) := by
  have hn0 : (length : Int) ≠ 0 := by
    simpa using Nat.pos_iff_ne_zero.mp hpos
  unfold normalize_amount
  split
  · rename_i hneg
    have hm : (-r).toNat % length < length := Nat.mod_lt _ hpos
    have hcast : (((-r).toNat : Int)) = -r := Int.toNat_of_nonneg (by omega)
    have hsub : ((length - (-r).toNat % length : Nat) : Int) =
        (length : Int) - (((-r).toNat % length : Nat) : Int) := by
      push_cast
      omega
    rw [hsub]
    have hmc : (((-r).toNat % length : Nat) : Int) = (-r) % (length : Int) := by
      push_cast [hcast]
      ring_nf
    rw [hmc]
    have h1 : Int.ModEq (length : Int) ((length : Int)) 0 := by
      unfold Int.ModEq
      rw [Int.emod_self, Int.zero_emod]
    have h2 : Int.ModEq (length : Int) (-r % (length : Int)) (-r) :=
      Int.emod_emod_of_dvd _ (dvd_refl _)
    have h4 : ((length : Int) - -r % (length : Int)) % (length : Int) =
        ((0 : Int) - -r) % (length : Int) := h1.sub h2
    rw [h4, show (0 : Int) - -r = r by ring]
  · rename_i hge
    have hcast : ((r.toNat : Int)) = r := Int.toNat_of_nonneg (by omega)
    have hmc : ((r.toNat % length : Nat) : Int) = r % (length : Int) := by
      push_cast [hcast]
      ring_nf
    rw [hmc, Int.emod_emod_of_dvd _ (dvd_refl _)]

/-- The target position of the rotation claim, rewritten through the code's
normalized amount. -/
theorem claim_index_eq (length : Nat) (hpos : 0 < length) (r : Int) (i : Nat)
    (hi : i < length) :
    (((i : Int) - r) % (length : Int)).toNat =
      (i + (length - normalize_amount length r)) % length := by
  have hle := normalize_amount_le length hpos r
  have hmod := normalize_amount_emod length hpos r
  have h1 : ((i : Int) - r) % (length : Int) =
      ((i : Int) - (normalize_amount length r : Int)) % (length : Int) := by
    rw [Int.sub_emod, ← hmod, ← Int.sub_emod]
  have h2 : ((i : Int) - (normalize_amount length r : Int)) % (length : Int) =
      (((i + (length - normalize_amount length r) : Nat) : Int)) % (length : Int) := by
    have e : ((i + (length - normalize_amount length r) : Nat) : Int) =
        (i : Int) - (normalize_amount length r : Int) + (length : Int) * 1 := by
      push_cast [hle]
      ring
    rw [e, Int.add_mul_emod_self_left]
  have h3 : (((i + (length - normalize_amount length r)) % length : Nat) : Int) =
      (((i + (length - normalize_amount length r)) : Nat) : Int) % (length : Int) := by
    push_cast
    ring_nf
  rw [h1, h2, ← h3, Int.toNat_ofNat]

/-- A rotation whose normalized amount is zero returns the array
unchanged. -/
theorem rotate_eq_of_amt_zero (b : Bitarray) (offset length : Nat) (r : Int)
    (hlen : length ≠ 0) (h0 : normalize_amount length r = 0) :
    bitarray_rotate b offset length r = b := by
  simp [bitarray_rotate, hlen, h0]

/-- A rotation of an empty range returns the array unchanged. -/
theorem rotate_len_zero (b : Bitarray) (offset : Nat) (r : Int) :
    bitarray_rotate b offset 0 r = b := by
  simp [bitarray_rotate]

/-- Core specification of `bitarray_rotate`: inside the range the bit at
`offset + i` moves to `offset + ((i + length - amt) mod length)` where `amt`
is the code's normalized amount; outside the range and on the buffer shape
the rotation is the identity. -/
theorem rotate_get_core (b : Bitarray) (offset length : Nat) (r : Int)
    (hB : ByteOk b.buf) (hbound : offset + length ≤ 8 * b.buf.length) :
    ByteOk (bitarray_rotate b offset length r).buf ∧
    (bitarray_rotate b offset length r).buf.length = b.buf.length ∧
    (bitarray_rotate b offset length r).bit_sz = b.bit_sz ∧
    (∀ i, i < length →
      bitarray_get (bitarray_rotate b offset length r) (offset + i) =
      bitarray_get b
        (offset + (i + (length - normalize_amount length r)) % length)) ∧
    (∀ x, x < offset ∨ offset + length ≤ x →
      bitarray_get (bitarray_rotate b offset length r) x = bitarray_get b x) := by
  by_cases hlen : length = 0
  · subst hlen
    rw [rotate_len_zero]
    exact ⟨hB, rfl, rfl, fun i hi => absurd hi (by omega), fun x hx => rfl⟩
  by_cases h0 : normalize_amount length r = 0
  · rw [rotate_eq_of_amt_zero b offset length r hlen h0]
    refine ⟨hB, rfl, rfl, fun i hi => ?_, fun x hx => rfl⟩
    rw [h0, Nat.sub_zero, Nat.add_mod_right, Nat.mod_eq_of_lt hi]
  · have hposl : 0 < length := by omega
    have hle := normalize_amount_le length hposl r
    have hrot : bitarray_rotate b offset length r =
        bitarray_reverse_range
          (bitarray_reverse_range
            (bitarray_reverse_range b offset (length - normalize_amount length r))
            (offset + (length - normalize_amount length r))
            (normalize_amount length r))
          offset length := by
      simp [bitarray_rotate, hlen, h0]
    set a := normalize_amount length r with ha
    have hpos_a : 0 < a := by omega
    obtain ⟨s1B, s1L, s1S, s1G⟩ :=
      reverse_range_spec b offset (length - a) hB (by omega)
    obtain ⟨s2B, s2L, s2S, s2G⟩ :=
      reverse_range_spec _ (offset + (length - a)) a s1B (by rw [s1L]; omega)
    obtain ⟨s3B, s3L, s3S, s3G⟩ :=
      reverse_range_spec _ offset length s2B (by rw [s2L, s1L]; omega)
    rw [hrot]
    refine ⟨s3B, by rw [s3L, s2L, s1L], by rw [s3S, s2S, s1S],
      fun i hi => ?_, fun x hx => ?_⟩
    · rw [s3G (offset + i), if_pos (by omega)]
      rw [show 2 * offset + length - 1 - (offset + i) =
        offset + (length - 1 - i) by omega]
      by_cases hi2 : i < a
      · rw [s2G (offset + (length - 1 - i)), if_pos (by omega)]
        rw [show 2 * (offset + (length - a)) + a - 1 - (offset + (length - 1 - i)) =
          offset + ((length - a) + i) by omega]
        rw [s1G (offset + ((length - a) + i)), if_neg (by omega)]
        have e : (i + (length - a)) % length = (length - a) + i := by
          rw [Nat.mod_eq_of_lt (by omega)]
          omega
        rw [e]
      · rw [s2G (offset + (length - 1 - i)), if_neg (by omega)]
        rw [s1G (offset + (length - 1 - i)), if_pos (by omega)]
        rw [show 2 * offset + (length - a) - 1 - (offset + (length - 1 - i)) =
          offset + (i - a) by omega]
        have e : (i + (length - a)) % length = i - a := by
          rw [show i + (length - a) = (i - a) + length by omega,
            Nat.add_mod_right, Nat.mod_eq_of_lt (by omega)]
        rw [e]
    · rw [s3G x, if_neg (by omega), s2G x, if_neg (by omega), s1G x,
        if_neg (by omega)]

/-- Rotation result at an in-range position, phrased through the
mathematical signed modulus of the claim. -/
theorem rotate_get_emod (b : Bitarray) (offset length : Nat) (r : Int)
    (hB : ByteOk b.buf) (hbound : offset + length ≤ 8 * b.buf.length)
    (i : Nat) (hi : i < length) :
    bitarray_get (bitarray_rotate b offset length r) (offset + i) =
      bitarray_get b (offset + (((i : Int) - r) % (length : Int)).toNat) := by
  obtain ⟨_, _, _, h4, _⟩ := rotate_get_core b offset length r hB hbound
  rw [h4 i hi, claim_index_eq length (by omega) r i hi]

/-- Exit of the bulk-safety predicate. -/
theorem bulk_safe_done (b : Bitarray) (left right remaining : Nat)
    (hc : ¬ 128 ≤ remaining) : bulk_safe b left right remaining := by
  rw [bulk_safe]
  rw [dif_neg hc]
  trivial

/-- Any bulk loop started on a range that fits in the buffer only performs
in-bounds wide accesses. -/
theorem bulk_safe_of :
    ∀ (remaining : Nat) (b : Bitarray) (left right : Nat),
      right = left + remaining → right ≤ 8 * b.buf.length →
      bulk_safe b left right remaining := by
  intro remaining
  induction remaining using Nat.strong_induction_on with
  | _ remaining ih =>
    intro b left right hr hbound
    by_cases hc : 128 ≤ remaining
    · rw [bulk_safe]
      rw [dif_pos hc]
      refine ⟨?_, ?_, ?_⟩
      · simp only [u64_in_bounds, u64_bytes]
        split <;> omega
      · simp only [u64_in_bounds, u64_bytes]
        split <;> omega
      · exact ih (remaining - 128) (by omega)
          (bitarray_set_u64
            (bitarray_set_u64 b (right - 64) (bitrev 64 (bitarray_get_u64 b left)))
            left (bitrev 64 (bitarray_get_u64 b (right - 64))))
          (left + 64) (right - 64) (by omega)
          (by rw [set_u64_length, set_u64_length]; omega)
    · exact bulk_safe_done b left right remaining hc

/-- Concrete 8-bit array `10110010` (index 0 leftmost), i.e. byte `77`. -/
def sampleA : Bitarray := ⟨8, [77]⟩

/-- Concrete 16-bit array. -/
def sampleB : Bitarray := ⟨16, [171, 60]⟩

/-- Concrete 72-bit array (nine bytes, enough for a wide access). -/
def sampleC : Bitarray := ⟨72, [17, 34, 51, 68, 85, 102, 119, 136, 153]⟩

/-- Concrete 136-bit array (17 bytes), long enough for the 128-bit bulk
path. -/
def sampleD : Bitarray := ⟨136, List.replicate 17 165⟩

/-- A computable check implying `ByteOk`. -/
theorem byteOk_of_all {buf : List Nat}
    (h : buf.all (fun x => decide (x < 256)) = true) : ByteOk buf := by
  intro x hx
  have hall := List.all_eq_true.mp h x hx
  simpa using hall

/-- A computable check implying the data-model invariant `WF`. -/
theorem WF_check {b : Bitarray} (h1 : b.buf.length = (b.bit_sz + 7) / 8)
    (h2 : b.buf.all (fun x => decide (x < 256)) = true) : WF b :=
  ⟨h1, byteOk_of_all h2⟩

/-- C1: for every well-formed bit array, in-bounds range and signed amount
`r`, after `bitarray_rotate` the bit at `offset + i` equals the original
bit at `offset + ((i - r) mod length)`, the modulus being the mathematical
(nonnegative) one. -/
theorem rotate_rotates_range (b : Bitarray) (offset length : Nat) (r : Int)
    (hWF : WF b) (hbound : offset + length ≤ b.bit_sz)
    (i : Nat) (hi : i < length) :
    bitarray_get (bitarray_rotate b offset length r) (offset + i) =
      bitarray_get b (offset + (((i : Int) - r) % ((length : Nat) : Int)).toNat) := by
  obtain ⟨h1, h2⟩ := hWF
  exact rotate_get_emod b offset length r h2 (by omega) i hi

/-- Witness for C1: the spec's own scenario `10110010`, rotated right by 3
within `[0, 8)`, checked at position 2. -/
theorem rotate_rotates_range_witness :
    bitarray_get (bitarray_rotate sampleA 0 8 3) (0 + 2) =
      bitarray_get sampleA (0 + ((((2 : Nat) : Int) - 3) % (((8 : Nat) : Nat) : Int)).toNat) :=
  rotate_rotates_range sampleA 0 8 3 (WF_check (by decide) (by decide))
    (by decide) 2 (by decide)

/-- C2: `bitarray_reverse_range` reverses the range in place: the bit at
`start + k` afterwards is the original bit at `start + length - 1 - k`. -/
theorem reverse_range_reverses (b : Bitarray) (start length : Nat)
    (hWF : WF b) (hbound : start + length ≤ b.bit_sz)
    (k : Nat) (hk : k < length) :
    bitarray_get (bitarray_reverse_range b start length) (start + k) =
      bitarray_get b (start + (length - 1 - k)) := by
  obtain ⟨h1, h2⟩ := hWF
  obtain ⟨_, _, _, hG⟩ := reverse_range_spec b start length h2 (by omega)
  rw [hG (start + k), if_pos (by omega)]
  congr 1
  omega

/-- Witness for C2: reversal of a 130-bit range (which exercises the bulk
phase) checked at position 5. -/
theorem reverse_range_reverses_witness :
    bitarray_get (bitarray_reverse_range sampleD 3 130) (3 + 5) =
      bitarray_get sampleD (3 + (130 - 1 - 5)) :=
  reverse_range_reverses sampleD 3 130 (WF_check (by decide) (by decide))
    (by decide) 5 (by decide)

/-- C3: under the data-model invariant and an in-range reversal request,
every wide access performed by the bulk phase of
`bitarray_reverse_range` — the ninth byte of unaligned accesses
included — stays inside the buffer. -/
theorem reverse_range_wide_accesses_in_bounds (b : Bitarray)
    (start length : Nat) (hWF : WF b) (hbound : start + length ≤ b.bit_sz) :
    bulk_safe b start (start + length) length := by
  obtain ⟨h1, _⟩ := hWF
  exact bulk_safe_of length b start (start + length) rfl (by omega)

/-- Witness for C3: the bulk-safety predicate for a 130-bit unaligned
reversal inside the 17-byte buffer. -/
theorem reverse_range_wide_accesses_in_bounds_witness :
    bulk_safe sampleD 3 (3 + 130) 130 :=
  reverse_range_wide_accesses_in_bounds sampleD 3 130
    (WF_check (by decide) (by decide)) (by decide)

/-- Counterexample for C4: at `length = 4`, `r = -4` the code's normalized
amount is `4`, which does not lie in the claimed interval `[0, 4)`. -/
theorem normalize_amount_counterexample :
    normalize_amount 4 (-4) = 4 ∧ ¬ normalize_amount 4 (-4) < 4 := by
  decide

/-- C4 (amended): the normalized amount lies in `[0, length]`; it is below
`length` for nonnegative raw amounts, and equals `length` exactly for
negative multiples of `length`; whenever it is `0` the rotation returns the
array unchanged, and it is `0` for every nonnegative multiple of
`length`. -/
theorem normalize_amount_normalization (length : Nat) (hpos : 0 < length)
    (r : Int) :
    normalize_amount length r ≤ length ∧
    (0 ≤ r → normalize_amount length r < length) ∧
    (normalize_amount length r = length ↔ r < 0 ∧ ((length : Int) ∣ r)) ∧
    (∀ b offset, normalize_amount length r = 0 →
      bitarray_rotate b offset length r = b) ∧
    (0 ≤ r → ((length : Int) ∣ r) → normalize_amount length r = 0) := by
  refine ⟨normalize_amount_le length hpos r, ?_, ?_, ?_, ?_⟩
  · intro hr
    unfold normalize_amount
    rw [if_neg (by omega)]
    exact Nat.mod_lt _ hpos
  · constructor
    · intro heq
      by_cases hr : r < 0
      · refine ⟨hr, ?_⟩
        unfold normalize_amount at heq
        rw [if_pos hr] at heq
        have hm : (-r).toNat % length < length := Nat.mod_lt _ hpos
        have hz : (-r).toNat % length = 0 := by omega
        have hdvd : length ∣ (-r).toNat := Nat.dvd_iff_mod_eq_zero.mpr hz
        have hcast : ((length : Int)) ∣ (((-r).toNat : Int)) :=
          Int.natCast_dvd_natCast.mpr hdvd
        rw [Int.toNat_of_nonneg (by omega)] at hcast
        exact (dvd_neg.mp hcast)
      · exfalso
        unfold normalize_amount at heq
        rw [if_neg hr] at heq
        have := Nat.mod_lt (r.toNat) hpos
        omega
    · rintro ⟨hr, hdvd⟩
      unfold normalize_amount
      rw [if_pos hr]
      have hdvd2 : ((length : Int)) ∣ -r := dvd_neg.mpr hdvd
      rw [show -r = (((-r).toNat : Nat) : Int) from
        (Int.toNat_of_nonneg (by omega)).symm] at hdvd2
      have := Nat.mod_eq_zero_of_dvd (Int.natCast_dvd_natCast.mp hdvd2)
      omega
  · intro b offset h0
    exact rotate_eq_of_amt_zero b offset length r (by omega) h0
  · intro hr hdvd
    unfold normalize_amount
    rw [if_neg (by omega)]
    rw [show r = ((r.toNat : Nat) : Int) from (Int.toNat_of_nonneg hr).symm] at hdvd
    exact Nat.mod_eq_zero_of_dvd (Int.natCast_dvd_natCast.mp hdvd)

/-- Witness for C4 (amended): at `length = 4`, `r = -8` (a negative
multiple) the amount is `4`; at `r = 8` the amount is `0` and the rotation
of a concrete array returns it unchanged. -/
theorem normalize_amount_normalization_witness :
    normalize_amount 4 (-8) = 4 ∧ bitarray_rotate sampleA 0 4 8 = sampleA := by
  constructor
  · exact (normalize_amount_normalization 4 (by decide) (-8)).2.2.1.mpr
      ⟨by decide, ⟨-2, by decide⟩⟩
  · exact (normalize_amount_normalization 4 (by decide) 8).2.2.2.1 sampleA 0
      ((normalize_amount_normalization 4 (by decide) 8).2.2.2.2 (by decide)
        ⟨2, by decide⟩)

/-- C5: a wide read returns the word whose bit `j` is the array bit at
`bit_index + j` for every `j < 64`, and degenerates to a direct 8-byte
little-endian read when the bit offset is zero. -/
theorem get_u64_reads_bits (b : Bitarray) (bit_index : Nat)
    (hWF : WF b) (hin : u64_in_bounds b bit_index) :
    (∀ j, j < 64 →
      (bitarray_get_u64 b bit_index).testBit j = bitarray_get b (bit_index + j)) ∧
    (bit_index % 8 = 0 →
      bitarray_get_u64 b bit_index = loadLE b.buf (bit_index / 8) 8) := by
  refine ⟨fun j hj => get_u64_testBit hWF.2 _ _ hj, fun h0 => ?_⟩
  simp only [bitarray_get_u64]
  rw [if_pos h0]

/-- Witness for C5: unaligned wide read at bit 3 of the 9-byte array,
checked at bit 5, plus the aligned degenerate case at bit 8. -/
theorem get_u64_reads_bits_witness :
    (bitarray_get_u64 sampleC 3).testBit 5 = bitarray_get sampleC (3 + 5) ∧
    bitarray_get_u64 sampleC 8 = loadLE sampleC.buf (8 / 8) 8 :=
  ⟨(get_u64_reads_bits sampleC 3 (WF_check (by decide) (by decide))
      (by unfold u64_in_bounds u64_bytes; decide)).1 5 (by decide),
   (get_u64_reads_bits sampleC 8 (WF_check (by decide) (by decide))
      (by unfold u64_in_bounds u64_bytes; decide)).2 (by decide)⟩

/-- C6: after a wide store of a 64-bit value `v` at `bit_index`, the bits
`[bit_index, bit_index+64)` are the bits of `v` (so a wide read returns
`v`), and every bit outside that window — the partial first and ninth
bytes included — is unchanged. -/
theorem set_u64_writes_bits (b : Bitarray) (bit_index v : Nat)
    (hWF : WF b) (hin : u64_in_bounds b bit_index) (hv : v < 2 ^ 64) :
    (∀ j, j < 64 →
      bitarray_get (bitarray_set_u64 b bit_index v) (bit_index + j) =
        v.testBit j) ∧
    bitarray_get_u64 (bitarray_set_u64 b bit_index v) bit_index = v ∧
    (∀ x, x < bit_index ∨ bit_index + 64 ≤ x →
      bitarray_get (bitarray_set_u64 b bit_index v) x = bitarray_get b x) := by
  obtain ⟨h1, h2⟩ := hWF
  refine ⟨fun j hj => ?_, ?_, fun x hx => ?_⟩
  · rw [get_set_u64 h2 hin hv, if_pos (by omega)]
    congr 1
    omega
  · apply Nat.eq_of_testBit_eq
    intro j
    by_cases hj : j < 64
    · rw [get_u64_testBit (set_u64_byteOk h2 _ _) _ _ hj,
        get_set_u64 h2 hin hv, if_pos (by omega)]
      congr 1
      omega
    · rw [Nat.testBit_lt_two_pow (lt_of_lt_of_le
          (get_u64_lt (set_u64_byteOk h2 _ _) _)
          (Nat.pow_le_pow_right (by norm_num) (by omega))),
        Nat.testBit_lt_two_pow (lt_of_lt_of_le hv
          (Nat.pow_le_pow_right (by norm_num) (by omega)))]
  · rw [get_set_u64 h2 hin hv, if_neg (by omega)]

/-- Witness for C6: unaligned wide store at bit 3 of the 9-byte array,
checked at the written bit 7, by a round-trip read, and at the untouched
bit 1. -/
theorem set_u64_writes_bits_witness :
    bitarray_get (bitarray_set_u64 sampleC 3 81985529216486895) (3 + 7) =
        (81985529216486895 : Nat).testBit 7 ∧
    bitarray_get_u64 (bitarray_set_u64 sampleC 3 81985529216486895) 3 =
        81985529216486895 ∧
    bitarray_get (bitarray_set_u64 sampleC 3 81985529216486895) 1 =
        bitarray_get sampleC 1 :=
  ⟨(set_u64_writes_bits sampleC 3 81985529216486895
      (WF_check (by decide) (by decide))
      (by unfold u64_in_bounds u64_bytes; decide) (by norm_num)).1 7 (by decide),
   (set_u64_writes_bits sampleC 3 81985529216486895
      (WF_check (by decide) (by decide))
      (by unfold u64_in_bounds u64_bytes; decide) (by norm_num)).2.1,
   (set_u64_writes_bits sampleC 3 81985529216486895
      (WF_check (by decide) (by decide))
      (by unfold u64_in_bounds u64_bytes; decide) (by norm_num)).2.2 1
      (by decide)⟩

/-- C7: rotating by `k` and then by `-k` over the same in-bounds range
restores every bit of the array. -/
theorem rotate_inverse_roundtrip (b : Bitarray) (offset length : Nat)
    (k : Int) (hWF : WF b) (hbound : offset + length ≤ b.bit_sz)
    (x : Nat) (hx : x < b.bit_sz) :
    bitarray_get
      (bitarray_rotate (bitarray_rotate b offset length k) offset length (-k))
      x = bitarray_get b x := by
  obtain ⟨h1, h2⟩ := hWF
  have hbound8 : offset + length ≤ 8 * b.buf.length := by omega
  obtain ⟨c1, c2, c3, c4, c5⟩ := rotate_get_core b offset length k h2 hbound8
  have hbound8m : offset + length ≤
      8 * (bitarray_rotate b offset length k).buf.length := by
    rw [c2]
    omega
  by_cases hin : offset ≤ x ∧ x < offset + length
  · have hpos : 0 < length := by omega
    obtain ⟨i, rfl, hi⟩ : ∃ i, x = offset + i ∧ i < length :=
      ⟨x - offset, by omega, by omega⟩
    rw [rotate_get_emod _ offset length (-k) c1 hbound8m i hi]
    have hn0 : ((length : Nat) : Int) ≠ 0 := by
      simpa using Nat.pos_iff_ne_zero.mp hpos
    have hnn : (0 : Int) ≤ ((i : Int) - -k) % ((length : Nat) : Int) :=
      Int.emod_nonneg _ hn0
    have hlt : ((i : Int) - -k) % ((length : Nat) : Int) < ((length : Nat) : Int) :=
      Int.emod_lt_of_pos _ (by exact_mod_cast hpos)
    have hj : (((i : Int) - -k) % ((length : Nat) : Int)).toNat < length := by
      omega
    rw [rotate_get_emod b offset length k h2 hbound8 _ hj]
    congr 1
    have hcast : ((((((i : Int) - -k) % ((length : Nat) : Int)).toNat : Nat) : Int)) =
        ((i : Int) - -k) % ((length : Nat) : Int) := Int.toNat_of_nonneg hnn
    have hfin : ((((((i : Int) - -k) % ((length : Nat) : Int)).toNat : Nat) : Int) - k) %
        ((length : Nat) : Int) = (i : Int) := by
      rw [hcast, Int.sub_emod, Int.emod_emod_of_dvd _ (dvd_refl _),
        ← Int.sub_emod, show (i : Int) - -k - k = (i : Int) by ring]
      exact Int.emod_eq_of_lt (by exact_mod_cast Nat.zero_le i)
        (by exact_mod_cast hi)
    rw [hfin, Int.toNat_ofNat]
  · obtain ⟨d1, d2, d3, d4, d5⟩ :=
      rotate_get_core (bitarray_rotate b offset length k) offset length (-k)
        c1 hbound8m
    rw [d5 x (by omega), c5 x (by omega)]

/-- Witness for C7: the spec's 136-bit scenario-style round trip through
the bulk path, `k = -47` then `47`, checked at bit 10. -/
theorem rotate_inverse_roundtrip_witness :
    bitarray_get
      (bitarray_rotate (bitarray_rotate sampleD 3 130 (-47)) 3 130 (- -47))
      10 = bitarray_get sampleD 10 :=
  rotate_inverse_roundtrip sampleD 3 130 (-47)
    (WF_check (by decide) (by decide)) (by decide) 10 (by decide)

/-- C8: an in-bounds point write is read back exactly, and every other
in-bounds position is unchanged. -/
theorem set_then_get_roundtrip (b : Bitarray) (i : Nat) (v : Bool)
    (hWF : WF b) (hi : i < b.bit_sz) :
    bitarray_get (bitarray_set b i v) i = v ∧
    (∀ j, j < b.bit_sz → j ≠ i →
      bitarray_get (bitarray_set b i v) j = bitarray_get b j) := by
  obtain ⟨h1, _⟩ := hWF
  have hin : i / 8 < b.buf.length := by omega
  refine ⟨?_, fun j hj hne => ?_⟩
  · rw [bitarray_get_set b i v hin i, if_pos rfl]
  · rw [bitarray_get_set b i v hin j, if_neg hne]

/-- Witness for C8: set bit 11 of the 16-bit array to true, read it back,
and check bit 3 is unchanged. -/
theorem set_then_get_roundtrip_witness :
    bitarray_get (bitarray_set sampleB 11 true) 11 = true ∧
    bitarray_get (bitarray_set sampleB 11 true) 3 = bitarray_get sampleB 3 :=
  ⟨(set_then_get_roundtrip sampleB 11 true (WF_check (by decide) (by decide))
      (by decide)).1,
   (set_then_get_roundtrip sampleB 11 true (WF_check (by decide) (by decide))
      (by decide)).2 3 (by decide) (by decide)⟩

/-- C9: rotating a range of length 0 is the identity on the whole array,
and so is rotating a range of length 1, for every signed amount. -/
theorem rotate_trivial_lengths_noop (b : Bitarray) (offset : Nat) (r : Int)
    (hofs : offset < b.bit_sz) :
    bitarray_rotate b offset 0 r = b ∧ bitarray_rotate b offset 1 r = b := by
  refine ⟨rotate_len_zero b offset r, ?_⟩
  have hrev0 : ∀ (bb : Bitarray) (o : Nat), bitarray_reverse_range bb o 0 = bb := by
    intro bb o
    rw [bitarray_reverse_range, reverse_loop_done _ _ _ _ (by norm_num)]
    show reverse_tail bb o (o + 0) o (o + 0 / 2) = bb
    rw [reverse_tail_done _ _ _ _ _ (by omega)]
  have hrev1 : ∀ (bb : Bitarray) (o : Nat), bitarray_reverse_range bb o 1 = bb := by
    intro bb o
    rw [bitarray_reverse_range, reverse_loop_done _ _ _ _ (by norm_num)]
    show reverse_tail bb o (o + 1) o (o + 1 / 2) = bb
    rw [reverse_tail_done _ _ _ _ _ (by omega)]
  by_cases hr : r < 0
  · have hamt : normalize_amount 1 r = 1 := by
      unfold normalize_amount
      rw [if_pos hr]
      omega
    have hsplit : bitarray_rotate b offset 1 r =
        bitarray_reverse_range
          (bitarray_reverse_range (bitarray_reverse_range b offset 0)
            (offset + 0) 1)
          offset 1 := by
      simp [bitarray_rotate, hamt]
    rw [hsplit, hrev0, hrev1, hrev1]
  · have hamt : normalize_amount 1 r = 0 := by
      unfold normalize_amount
      rw [if_neg hr]
      omega
    exact rotate_eq_of_amt_zero b offset 1 r (by norm_num) hamt

/-- Witness for C9: length-0 and length-1 rotations at offset 3 of the
16-bit array, with a negative amount. -/
theorem rotate_trivial_lengths_noop_witness :
    bitarray_rotate sampleB 3 0 (-5) = sampleB ∧
    bitarray_rotate sampleB 3 1 (-5) = sampleB :=
  rotate_trivial_lengths_noop sampleB 3 (-5) (by decide)

/-- C10: a rotation leaves every bit outside `[offset, offset+length)`
unchanged and does not change the bit count. -/
theorem rotate_frame (b : Bitarray) (offset length : Nat) (r : Int)
    (hWF : WF b) (hbound : offset + length ≤ b.bit_sz) :
    (∀ x, x < offset ∨ offset + length ≤ x →
      bitarray_get (bitarray_rotate b offset length r) x = bitarray_get b x) ∧
    (bitarray_rotate b offset length r).bit_sz = b.bit_sz := by
  obtain ⟨h1, h2⟩ := hWF
  obtain ⟨_, _, c3, _, c5⟩ := rotate_get_core b offset length r h2 (by omega)
  exact ⟨c5, c3⟩

/-- Witness for C10: a bulk-path rotation of `[3, 133)` leaves bit 1 and
bit 135 unchanged and preserves the bit count of the 136-bit array. -/
theorem rotate_frame_witness :
    bitarray_get (bitarray_rotate sampleD 3 130 7) 1 = bitarray_get sampleD 1 ∧
    bitarray_get (bitarray_rotate sampleD 3 130 7) 135 =
      bitarray_get sampleD 135 ∧
    (bitarray_rotate sampleD 3 130 7).bit_sz = sampleD.bit_sz :=
  ⟨(rotate_frame sampleD 3 130 7 (WF_check (by decide) (by decide))
      (by decide)).1 1 (by decide),
   (rotate_frame sampleD 3 130 7 (WF_check (by decide) (by decide))
      (by decide)).1 135 (by decide),
   (rotate_frame sampleD 3 130 7 (WF_check (by decide) (by decide))
      (by decide)).2⟩

end Everybit
